import Mathlib

/-!
Verification development for the tickervista ingest script (`src/ingest.py`).

The script's pure decision logic is embedded shallowly:

* `ensure_supabase_pooler_options` — the connection-string normalizer
  (`ingest.py` lines 21–38), operating on a parsed URL (`urlsplit` fields,
  query as the decoded key/value pair list produced by `parse_qsl`; `dict`
  construction and `urlencode` round-trip are modelled by `toDict` and the
  in-place-update map `qset`).
* `fetch_daily_adjusted` — the retry loop (lines 88–122) over an oracle
  giving the response of each attempt; the returned value pairs the list of
  sleep durations with the outcome (raised error or returned rows).
* `upsertOne`/`upsertBatch` — the ON CONFLICT (symbol, ts) DO UPDATE writer
  (lines 74–81), modelled as a map keyed by (symbol, ts).
* `driveFrom`/`runMain` — the per-symbol driver loop of `main`
  (lines 141–154).
-/

set_option maxHeartbeats 1000000

namespace TickerVista

/-- Python's substring membership test `pat in s`, on character lists:
`isPre p s` is "`p` is an initial segment of `s`". -/

def isPre : List Char → List Char → Bool
  | [], _ => true
  | _ :: _, [] => false
  | a :: p, b :: s => a == b && isPre p s

/-- `hasSub p s` is "`p` occurs contiguously somewhere in `s`". -/

def hasSub (p : List Char) : List Char → Bool
  | [] => p.isEmpty
  | c :: rest => isPre p (c :: rest) || hasSub p rest

/-- Python's `pat in s` on strings. -/

def strHas (s pat : String) : Bool := hasSub pat.data s.data

/-- `strStarts s t` is "`s` starts with `t`". -/

def strStarts (s t : String) : Bool := isPre t.data s.data

/-- The whitespace class of Python's `str.strip()`. -/

def isSpaceChar (c : Char) : Bool :=
  c == ' ' || c == '\t' || c == '\n' || c == '\r' || c == '\x0b' || c == '\x0c'

/-- Drop the longest leading run of characters satisfying `p`. -/

def dropLeading (p : Char → Bool) : List Char → List Char
  | [] => []
  | c :: rest => if p c then dropLeading p rest else c :: rest

/-- Python's `str.strip()`: remove leading and trailing whitespace. -/

def pyStrip (s : String) : String :=
  ⟨dropLeading isSpaceChar (dropLeading isSpaceChar s.data.reverse).reverse⟩

/-- A split connection URL, the five components returned by `urlsplit`;
the query is held as the decoded key/value pair list that `parse_qsl`
(with `keep_blank_values=True`) produces from the raw query string. -/

structure URL where
  scheme : String
  netloc : String
  path : String
  query : List (String × String)
  fragment : String
deriving DecidableEq, Repr

attribute [ext] URL

/-- Python `dict` lookup `q.get(k)` on an association list (first match). -/

def qget : List (String × String) → String → Option String
  | [], _ => none
  | p :: rest, k => if p.1 = k then some p.2 else qget rest k

/-- Python `dict` assignment `q[k] = v`: replace the value in place when the
key is present, append the pair at the end otherwise. -/

def qset : List (String × String) → String → String → List (String × String)
  | [], k, v => [(k, v)]
  | p :: rest, k, v => if p.1 = k then (k, v) :: rest else p :: qset rest k v

/-- `dict(parse_qsl(...))`: build a dict from the pair list left to right,
so keys keep their first-occurrence position and the last value wins. -/

def toDict (l : List (String × String)) : List (String × String) :=
  l.foldl (fun d p => qset d p.1 p.2) []

/-- The key list of a query dict. -/

def keysOf (q : List (String × String)) : List String := q.map Prod.fst

/-- `DEFAULT_PROJECT_REF` from `ingest.py` line 18. -/

def DEFAULT_PROJECT_REF : String := "dynrvdexbngvrawdtjsc"

/-- Lines 25–27: force `sslmode=require` into the query dict. -/

def sslmodeStep (q : List (String × String)) : List (String × String) :=
  if qget q "sslmode" ≠ some "require" then qset q "sslmode" "require" else q

/-- Line 30: `"options" in q and "project=" in (q.get("options") or "")`. -/

def hasProjectOpt (q : List (String × String)) : Bool :=
  match qget q "options" with
  | some o => strHas o "project="
  | none => false

/-- Lines 31–37: inject `project=<ref>` into the `options` parameter when the
host needs it and no project routing is present; a pre-existing non-empty
`options` value is kept (stripped) and the project tag appended. -/

def optionsStep (PROJECT_REF : String) (need_project : Bool)
    (q : List (String × String)) : List (String × String) :=
  if need_project && !(hasProjectOpt q) then
    match qget q "options" with
    | some o =>
        if o = "" then qset q "options" ("project=" ++ PROJECT_REF)
        else if strHas o "project=" then q
        else qset q "options" (pyStrip o ++ " project=" ++ PROJECT_REF)
    | none => qset q "options" ("project=" ++ PROJECT_REF)
  else q

/-- `ensure_supabase_pooler_options` (lines 21–38): split the DSN, collapse
the query into a dict, force `sslmode=require`, inject the `project` routing
option when the netloc is a Supabase pooler host, and reassemble. -/

def ensure_supabase_pooler_options (PROJECT_REF : String) (u : URL) : URL :=
  { u with
    query :=
      optionsStep PROJECT_REF (strHas u.netloc "pooler.supabase.com")
        (sslmodeStep (toDict u.query)) }

/-- The `options` value the normalizer produces when the project routing tag
is missing: the tag alone, or the stripped pre-existing option text with the
tag appended after a space (lines 33–37 of `ingest.py`). -/

def mergedOptions (PROJECT_REF : String) (q : List (String × String)) : String :=
  match qget q "options" with
  | some o =>
      if o = "" then "project=" ++ PROJECT_REF
      else pyStrip o ++ " project=" ++ PROJECT_REF
  | none => "project=" ++ PROJECT_REF

/-- A concrete pooler DSN for the C7 witness: Supabase pooler host, an
`options` value carrying other text, and no project routing option. -/

def poolerUrlExample : URL :=
  { scheme := "postgresql"
    netloc := "user.ref:pw@aws-0-ap-northeast-1.pooler.supabase.com:6543"
    path := "/postgres"
    query := [("options", "-c statement_timeout=0")]
    fragment := "" }

/-- A calendar date, the parsed form of the ISO date keys of the upstream
time-series mapping. -/

structure Date where
  y : Nat
  m : Nat
  d : Nat
deriving DecidableEq, Repr

/-- The instant `dtparse.isoparse(ds).replace(tzinfo=timezone.utc)`
(line 108): midnight UTC of the calendar date, encoded order-isomorphically
(for valid calendar dates) as `y*10000 + m*100 + d`. -/

def tsOfDate (dt : Date) : Nat := dt.y * 10000 + dt.m * 100 + dt.d

/-- A date with month and day in calendar range (what upstream ISO date keys
denote); on these `tsOfDate` is injective and order-preserving. -/

def validDate (dt : Date) : Prop := 1 ≤ dt.m ∧ dt.m ≤ 12 ∧ 1 ≤ dt.d ∧ dt.d ≤ 31

instance (dt : Date) : Decidable (validDate dt) := by
  unfold validDate
  infer_instance

/-- One value of the upstream time-series mapping: the numeric fields the
script parses out of `v` with `float(...)`/`int(...)` (lines 109–114);
`5. adjusted close` may be absent. -/

structure RawBar where
  rOpen : Rat
  rHigh : Rat
  rLow : Rat
  rClose : Rat
  rAdjClose : Option Rat
  rVolume : Int
deriving DecidableEq, Repr

/-- One row dict built by `fetch_daily_adjusted` (lines 106–116). -/

structure Bar where
  symbol : String
  ts : Nat
  «open» : Rat
  high : Rat
  low : Rat
  close : Rat
  adj_close : Rat
  volume : Int
  source : String
deriving DecidableEq, Repr

/-- Lines 106–116: one row from one (date key, value) item; a missing
adjusted close falls back to the close value. -/

def mkRow (symbol : String) (p : Date × RawBar) : Bar :=
  { symbol := symbol
    ts := tsOfDate p.1
    «open» := p.2.rOpen
    high := p.2.rHigh
    low := p.2.rLow
    close := p.2.rClose
    adj_close := p.2.rAdjClose.getD p.2.rClose
    volume := p.2.rVolume
    source := "alphavantage" }

instance : DecidableRel (fun a b : Bar => a.ts ≤ b.ts) :=
  fun a b => Nat.decLe a.ts b.ts

instance : IsTotal Bar (fun a b => a.ts ≤ b.ts) :=
  ⟨fun a b => Nat.le_total a.ts b.ts⟩

instance : IsTrans Bar (fun a b => a.ts ≤ b.ts) :=
  ⟨fun _ _ _ h1 h2 => le_trans h1 h2⟩

/-- Line 117: `rows.sort(key=lambda r: r["ts"])`. -/

def sortByTs (rows : List Bar) : List Bar :=
  List.insertionSort (fun a b => a.ts ≤ b.ts) rows

/-- Lines 104–117: build one row per item of the time-series mapping, then
sort ascending by timestamp. -/

def parseRows (symbol : String) (items : List (Date × RawBar)) : List Bar :=
  sortByTs (items.map (mkRow symbol))

/-- The JSON body of one API response, by the keys the script inspects:
the "Error Message" field, the presence of the "Note" rate-limit field, and
the "Time Series (Daily)" mapping (as its item list). -/

structure ApiJson where
  errorMsg : Option String
  note : Bool
  series : Option (List (Date × RawBar))
deriving DecidableEq, Repr

/-- What one attempt of the HTTP GET produces: an exception out of
`requests.get` / `raise_for_status` / `r.json()` (network error, timeout,
bad status, bad JSON), or a JSON body. -/

inductive FetchStep where
  | netErr (msg : String)
  | ok (j : ApiJson)
deriving DecidableEq, Repr

/-- The result of `fetch_daily_adjusted`: the exception it raises to the
caller, or the row list it returns. -/

inductive Outcome where
  | raised (msg : String)
  | bars (rows : List Bar)
deriving DecidableEq, Repr

/-- `true` iff the fetch ended by raising to the caller. -/

def Outcome.isRaised : Outcome → Bool
  | .raised _ => true
  | .bars _ => false

/-- The message of `RuntimeError("No 'Time Series (Daily)' in response")`
(line 103). -/

def noSeriesMsg : String := "No Time Series (Daily) in response"

/-- One iteration of `for attempt in range(3)` (lines 91–121), given `next`,
the joint result of the remaining iterations. Pairs the sleeps performed
from this attempt on with the outcome. Any exception — network error,
explicit "Error Message" field, missing or empty time series — is re-raised
when `attempt == 2` and otherwise leads to a `5 * 2^attempt` sleep and a
retry (line 119–121); a rate-limit "Note" leads to a `15 + attempt*10`
sleep and a retry without raising (lines 98–101), falling through to
`return []` after the last attempt. -/

def attemptStep (symbol : String) (resp : Nat → FetchStep) (attempt : Nat)
    (next : List Nat × Outcome) : List Nat × Outcome :=
  match resp attempt with
  | .netErr m =>
      if attempt == 2 then ([], .raised m)
      else (5 * 2 ^ attempt :: next.1, next.2)
  | .ok j =>
      match j.errorMsg with
      | some m =>
          if attempt == 2 then ([], .raised m)
          else (5 * 2 ^ attempt :: next.1, next.2)
      | none =>
          if j.note then ((15 + attempt * 10) :: next.1, next.2)
          else
            match j.series with
            | some items =>
                if items = [] then
                  if attempt == 2 then ([], .raised noSeriesMsg)
                  else (5 * 2 ^ attempt :: next.1, next.2)
                else ([], .bars (parseRows symbol items))
            | none =>
                if attempt == 2 then ([], .raised noSeriesMsg)
                else (5 * 2 ^ attempt :: next.1, next.2)

/-- `fetch_daily_adjusted` (lines 88–122): the three attempts in sequence,
with `([], .bars [])` as the fall-through `return []` after the loop. -/

def fetch_daily_adjusted (symbol : String) (resp : Nat → FetchStep) :
    List Nat × Outcome :=
  attemptStep symbol resp 0 (attemptStep symbol resp 1
    (attemptStep symbol resp 2 ([], Outcome.bars [])))

/-- An upstream payload whose two date keys arrive in descending order. -/

def exampleItems : List (Date × RawBar) :=
  [(⟨2024, 1, 3⟩, ⟨184, 186, 183, 185, some 184, 50000000⟩),
   (⟨2024, 1, 2⟩, ⟨187, 188, 185, 186, none, 48000000⟩)]

/-- A successful JSON body carrying `exampleItems`. -/

def exampleJson : ApiJson :=
  { errorMsg := none, note := false, series := some exampleItems }

/-- A response oracle that succeeds on every attempt. -/

def exampleResp : Nat → FetchStep := fun _ => FetchStep.ok exampleJson

/-- The rows `fetch_daily_adjusted` builds from `exampleItems`: ascending by
timestamp, with the missing adjusted close of 2024-01-02 falling back to its
close. -/

def exampleRows : List Bar :=
  [{ symbol := "AAPL", ts := 20240102, «open» := 187, high := 188, low := 185,
     close := 186, adj_close := 186, volume := 48000000, source := "alphavantage" },
   { symbol := "AAPL", ts := 20240103, «open» := 184, high := 186, low := 183,
     close := 185, adj_close := 184, volume := 50000000, source := "alphavantage" }]

/-- A JSON body carrying the explicit "Error Message" field. -/

def errJson : ApiJson :=
  { errorMsg := some "API error", note := false, series := none }

/-- A response oracle: explicit API error on the first attempt, success on
the later attempts. -/

def errThenOkResp : Nat → FetchStep :=
  fun a => if a = 0 then FetchStep.ok errJson else FetchStep.ok exampleJson

/-- A response oracle erroring on every attempt. -/

def errResp : Nat → FetchStep := fun _ => FetchStep.ok errJson

/-- A rate-limit JSON body (the "Note" field present). -/

def noteJson : ApiJson := { errorMsg := none, note := true, series := none }

/-- A response oracle rate-limited on every attempt. -/

def noteResp : Nat → FetchStep := fun _ => FetchStep.ok noteJson

/-- The (symbol, ts) primary key of a row (PRIMARY KEY of
`tickervista.ohlcv_1d`, line 68). -/

def barKey (b : Bar) : String × Nat := (b.symbol, b.ts)

/-- The `ohlcv_1d` table modelled as a map keyed by (symbol, ts): at most
one entry per key, in insertion order. -/

abbrev Store := List ((String × Nat) × Bar)

/-- One row's `INSERT ... ON CONFLICT (symbol, ts) DO UPDATE` (the UPSERT
statement, lines 74–81): on key collision overwrite the stored fields in
place (last-write-wins); otherwise insert a new row. -/

def upsertOne : Store → Bar → Store
  | [], b => [(barKey b, b)]
  | e :: rest, b =>
      if e.1 = barKey b then (barKey b, b) :: rest
      else e :: upsertOne rest b

/-- `execute_batch(cur, UPSERT, rows)` (line 148): apply the upsert to each
row of the batch in order. -/

def upsertBatch (s : Store) (rows : List Bar) : Store :=
  rows.foldl upsertOne s

/-- The stored row at a key, if any. -/

def storeGet : Store → String × Nat → Option Bar
  | [], _ => none
  | e :: rest, k => if e.1 = k then some e.2 else storeGet rest k

/-- The last row of a batch carrying the given key, if any — under
last-write-wins this is the row that survives the batch. -/

def lastWith (k : String × Nat) : List Bar → Option Bar
  | [] => none
  | b :: rest =>
      match lastWith k rest with
      | some r => some r
      | none => if barKey b = k then some b else none

/-- What `rows = fetch_daily_adjusted(sym)` (line 144) delivers to the
driver: an exception, or a row list. -/

inductive DFetch where
  | err (msg : String)
  | rows (rs : List Bar)

/-- One observable step of the driver loop, in order: the progress lines it
prints, the sleep it performs, and the final report. -/

inductive Event where
  | ingest (i n : Nat) (sym : String)
  | noData (sym : String)
  | done (sym : String) (nrows : Nat)
  | slept (secs : Nat)
  | skip (sym : String)
  | report (total : Nat)
deriving DecidableEq, Repr

/-- The symbol of an ingest progress line. -/

def Event.ingestSym : Event → Option String
  | .ingest _ _ s => some s
  | _ => none

/-- The symbol of a skip line. -/

def Event.skipSym : Event → Option String
  | .skip s => some s
  | _ => none

/-- Whether the event is a sleep. -/

def isSleep : Event → Bool
  | .slept _ => true
  | _ => false

/-- The loop body (lines 142–153) for one symbol at 1-based index `i` of
`n`: the events in order, the new store, the new running total. `fetchO`
gives the fetch outcome per symbol; `writeOk` gives whether the batched
upsert commits (`false` = `execute_batch` raises). On an exception from
fetch or write the driver prints a skip and moves on; on empty rows it
prints "no data"; on success it writes, adds the row count to the total,
prints "done" and sleeps 13 s unless `i` is the last index. -/

def symStep (fetchO : String → DFetch) (writeOk : String → Bool) (i n : Nat)
    (sym : String) (store : Store) (total : Nat) :
    List Event × Store × Nat :=
  match fetchO sym with
  | .err _ => ([.ingest i n sym, .skip sym], store, total)
  | .rows rs =>
      if rs = [] then ([.ingest i n sym, .noData sym], store, total)
      else if writeOk sym then
        ([.ingest i n sym, .done sym rs.length]
            ++ (if i < n then [.slept 13] else []),
          upsertBatch store rs, total + rs.length)
      else ([.ingest i n sym, .skip sym], store, total)

/-- The driver loop over the remaining symbols, `i` the 1-based index of
the first of them, `n` the total symbol count (`len(SYMBOLS)`). -/

def driveFrom (fetchO : String → DFetch) (writeOk : String → Bool) :
    Nat → Nat → List String → Store → Nat → List Event × Store × Nat
  | _, _, [], store, total => ([], store, total)
  | i, n, sym :: rest, store, total =>
      let r1 := symStep fetchO writeOk i n sym store total
      let r2 := driveFrom fetchO writeOk (i + 1) n rest r1.2.1 r1.2.2
      (r1.1 ++ r2.1, r2.2)

/-- `main`'s ingestion loop with its final "TOTAL UPSERT" report
(lines 140–154), from an initial store state. -/

def runMain (syms : List String) (fetchO : String → DFetch)
    (writeOk : String → Bool) (store : Store) : List Event × Store × Nat :=
  let r := driveFrom fetchO writeOk 1 syms.length syms store 0
  (r.1 ++ [.report r.2.2], r.2)

/-- Whether the driver's processing of a symbol hits an exception: the
fetch raises, or the rows are non-empty and the write raises. -/

def failsFor (fetchO : String → DFetch) (writeOk : String → Bool)
    (sym : String) : Bool :=
  match fetchO sym with
  | .err _ => true
  | .rows rs => if rs = [] then false else !writeOk sym

/-- Whether a symbol's batch is successfully written (fetch returns
non-empty rows and the write commits). -/

def writesFor (fetchO : String → DFetch) (writeOk : String → Bool)
    (sym : String) : Bool :=
  match fetchO sym with
  | .err _ => false
  | .rows rs => if rs = [] then false else writeOk sym

/-- The number of rows the fetch returns for a symbol (0 when it raises). -/

def rowCount (fetchO : String → DFetch) (sym : String) : Nat :=
  match fetchO sym with
  | .err _ => 0
  | .rows rs => rs.length

/-- The two-symbol run refuting C5: the first symbol's fetch raises. -/

def cexSyms : List String := ["AAA", "BBB"]

/-- Fetch oracle for the C5 counterexample: error for "AAA", rows for the
rest. -/

def cexFetchO : String → DFetch :=
  fun s => if s = "AAA" then DFetch.err "boom" else DFetch.rows exampleRows

theorem qget_qset_self (q : List (String × String)) (k v : String) :
    qget (qset q k v) k = some v := by
  induction q with
  | nil => simp [qset, qget]
  | cons p rest ih =>
      by_cases h : p.1 = k
      · simp [qset, h, qget]
      · simp [qset, h, qget, ih]

theorem qget_qset_ne (q : List (String × String)) (k v k2 : String)
    (hne : k2 ≠ k) : qget (qset q k v) k2 = qget q k2 := by
  induction q with
  | nil => simp [qset, qget, Ne.symm hne]
  | cons p rest ih =>
      by_cases h : p.1 = k
      · simp [qset, h, qget, Ne.symm hne, ih]
      · simp [qset, h, qget, ih]

theorem keysOf_qset (q : List (String × String)) (k v : String) :
    keysOf (qset q k v) = if k ∈ keysOf q then keysOf q else keysOf q ++ [k] := by
  induction q with
  | nil => simp [qset, keysOf]
  | cons p rest ih =>
      by_cases h : p.1 = k
      · subst h
        simp [qset, keysOf]
      · by_cases hm : k ∈ keysOf rest
        · simp only [keysOf] at ih hm ⊢
          simp [qset, h, hm, Ne.symm h, ih]
        · simp only [keysOf] at ih hm ⊢
          simp [qset, h, hm, Ne.symm h, ih]

theorem nodup_keysOf_qset (q : List (String × String)) (k v : String)
    (h : (keysOf q).Nodup) : (keysOf (qset q k v)).Nodup := by
  rw [keysOf_qset]
  split
  · exact h
  · next hm => simp [List.nodup_append, h, hm]

theorem qset_of_not_mem (k v : String) :
    ∀ q : List (String × String), k ∉ keysOf q → qset q k v = q ++ [(k, v)] := by
  intro q
  induction q with
  | nil => intro _; simp [qset]
  | cons p rest ih =>
      intro h
      rw [show keysOf (p :: rest) = p.1 :: keysOf rest from rfl, List.mem_cons] at h
      push_neg at h
      simp [qset, Ne.symm h.1, ih h.2]

theorem foldl_qset_eq_append (l : List (String × String)) :
    ∀ acc : List (String × String), (keysOf (acc ++ l)).Nodup →
      l.foldl (fun d p => qset d p.1 p.2) acc = acc ++ l := by
  induction l with
  | nil => intro acc _; simp
  | cons p rest ih =>
      intro acc h
      have heq : acc ++ p :: rest = (acc ++ [p]) ++ rest := by simp
      have hp : p.1 ∉ keysOf acc := by
        have h2 : (keysOf acc ++ p.1 :: keysOf rest).Nodup := by
          simpa [keysOf] using h
        rcases List.nodup_append.mp h2 with ⟨-, -, hdisj⟩
        exact fun hmem => hdisj hmem (List.mem_cons_self _ _)
      have hq : qset acc p.1 p.2 = acc ++ [p] := by
        rw [qset_of_not_mem p.1 p.2 acc hp]
      have h3 : (keysOf ((acc ++ [p]) ++ rest)).Nodup := by
        rw [← heq]; exact h
      rw [List.foldl_cons, hq, ih (acc ++ [p]) h3]
      simp

theorem nodup_keysOf_foldl (l : List (String × String)) :
    ∀ acc : List (String × String), (keysOf acc).Nodup →
      (keysOf (l.foldl (fun d p => qset d p.1 p.2) acc)).Nodup := by
  induction l with
  | nil => intro acc h; exact h
  | cons p rest ih =>
      intro acc h
      rw [List.foldl_cons]
      exact ih _ (nodup_keysOf_qset _ _ _ h)

theorem nodup_keysOf_toDict (l : List (String × String)) :
    (keysOf (toDict l)).Nodup := by
  have : (keysOf ([] : List (String × String))).Nodup := by simp [keysOf]
  exact nodup_keysOf_foldl l [] this

theorem toDict_eq_self (l : List (String × String))
    (h : (keysOf l).Nodup) : toDict l = l := by
  have := foldl_qset_eq_append l [] (by simpa using h)
  simpa [toDict] using this

theorem isPre_refl (p : List Char) : isPre p p = true := by
  induction p with
  | nil => rfl
  | cons a p ih => simp [isPre, ih]

theorem isPre_append (p t : List Char) : isPre p (p ++ t) = true := by
  induction p with
  | nil => rfl
  | cons a p ih => simp [isPre, ih]

theorem hasSub_of_isPre (p s : List Char) (h : isPre p s = true) :
    hasSub p s = true := by
  cases s with
  | nil =>
      cases p with
      | nil => rfl
      | cons a p => simp [isPre] at h
  | cons c rest => simp [hasSub, h]

theorem hasSub_append_left (p s : List Char) (h : hasSub p s = true) :
    ∀ x : List Char, hasSub p (x ++ s) = true := by
  intro x
  induction x with
  | nil => simpa using h
  | cons c x ih => simp [hasSub, ih]

theorem hasSub_parts (p x t : List Char) : hasSub p (x ++ (p ++ t)) = true :=
  hasSub_append_left p _ (hasSub_of_isPre p _ (isPre_append p t)) x

theorem strHas_parts (x p t : String) : strHas (x ++ p ++ t) p = true := by
  unfold strHas
  rw [String.data_append, String.data_append, List.append_assoc]
  exact hasSub_parts p.data x.data t.data

theorem strHas_append_right (p t : String) : strHas (p ++ t) p = true := by
  unfold strHas
  rw [String.data_append]
  exact hasSub_of_isPre _ _ (isPre_append _ _)

theorem strHas_append_self (x p : String) : strHas (x ++ p) p = true := by
  unfold strHas
  rw [String.data_append]
  exact hasSub_append_left _ _ (hasSub_of_isPre _ _ (isPre_refl _)) _

theorem strHas_self (s : String) : strHas s s = true :=
  hasSub_of_isPre _ _ (isPre_refl _)

theorem merged_split (o ref : String) :
    o ++ " project=" ++ ref = (o ++ " ") ++ ("project=" ++ ref) := by
  rw [show (" project=" : String) = " " ++ "project=" from rfl,
    ← String.append_assoc o " " "project=",
    String.append_assoc (o ++ " ") "project=" ref]

theorem strHas_merged_full (o ref : String) :
    strHas (o ++ " project=" ++ ref) ("project=" ++ ref) = true := by
  rw [merged_split]
  exact strHas_append_self _ _

theorem strHas_merged_pat (o ref : String) :
    strHas (o ++ " project=" ++ ref) "project=" = true := by
  rw [merged_split, ← String.append_assoc]
  exact strHas_parts _ _ _

theorem strStarts_append (a b : String) : strStarts (a ++ b) a = true := by
  unfold strStarts
  rw [String.data_append]
  exact isPre_append _ _

theorem strStarts_empty (s : String) : strStarts s "" = true := rfl

theorem qget_sslmodeStep (q : List (String × String)) :
    qget (sslmodeStep q) "sslmode" = some "require" := by
  unfold sslmodeStep
  split
  · exact qget_qset_self _ _ _
  · next h => exact not_ne_iff.mp h

theorem qget_sslmodeStep_ne (q : List (String × String)) (k : String)
    (h : k ≠ "sslmode") : qget (sslmodeStep q) k = qget q k := by
  unfold sslmodeStep
  split
  · exact qget_qset_ne _ _ _ _ h
  · rfl

theorem nodup_sslmodeStep (q : List (String × String))
    (h : (keysOf q).Nodup) : (keysOf (sslmodeStep q)).Nodup := by
  unfold sslmodeStep
  split
  · exact nodup_keysOf_qset _ _ _ h
  · exact h

theorem nodup_optionsStep (ref : String) (np : Bool) (q : List (String × String))
    (h : (keysOf q).Nodup) : (keysOf (optionsStep ref np q)).Nodup := by
  unfold optionsStep
  split
  · split
    · split
      · exact nodup_keysOf_qset _ _ _ h
      · split
        · exact h
        · exact nodup_keysOf_qset _ _ _ h
    · exact nodup_keysOf_qset _ _ _ h
  · exact h

theorem qget_optionsStep_sslmode (ref : String) (np : Bool)
    (q : List (String × String)) :
    qget (optionsStep ref np q) "sslmode" = qget q "sslmode" := by
  unfold optionsStep
  split
  · split
    · split
      · exact qget_qset_ne _ _ _ _ (by decide)
      · split
        · rfl
        · exact qget_qset_ne _ _ _ _ (by decide)
    · exact qget_qset_ne _ _ _ _ (by decide)
  · rfl

theorem hasProjectOpt_sslmodeStep (q : List (String × String)) :
    hasProjectOpt (sslmodeStep q) = hasProjectOpt q := by
  unfold hasProjectOpt
  rw [qget_sslmodeStep_ne _ _ (by decide)]

theorem hasProjectOpt_optionsStep (ref : String) (q : List (String × String)) :
    hasProjectOpt (optionsStep ref true q) = true := by
  by_cases hq : hasProjectOpt q = true
  · simp [optionsStep, hq]
  · have hq2 : hasProjectOpt q = false := by simpa using hq
    simp only [optionsStep, hq2, Bool.not_false, Bool.and_true, if_true]
    cases ho : qget q "options" with
    | none =>
        unfold hasProjectOpt
        rw [qget_qset_self]
        exact strHas_append_right _ _
    | some o =>
        by_cases ho0 : o = ""
        · simp only [ho0, if_true]
          unfold hasProjectOpt
          rw [qget_qset_self]
          exact strHas_append_right _ _
        · have hso : strHas o "project=" = false := by
            unfold hasProjectOpt at hq2
            rw [ho] at hq2
            exact hq2
          simp only [ho0, if_false, hso, Bool.false_eq_true]
          unfold hasProjectOpt
          rw [qget_qset_self]
          exact strHas_merged_pat _ _

theorem sslmodeStep_of_require (q : List (String × String))
    (h : qget q "sslmode" = some "require") : sslmodeStep q = q := by
  unfold sslmodeStep
  rw [h]
  simp

theorem optionsStep_false (ref : String) (q : List (String × String)) :
    optionsStep ref false q = q := by
  unfold optionsStep
  simp

theorem optionsStep_of_hasProject (ref : String) (q : List (String × String))
    (h : hasProjectOpt q = true) : optionsStep ref true q = q := by
  unfold optionsStep
  rw [h]
  simp

theorem queryStep_idem (ref : String) (np : Bool) (q : List (String × String)) :
    optionsStep ref np (sslmodeStep (toDict (optionsStep ref np (sslmodeStep (toDict q)))))
      = optionsStep ref np (sslmodeStep (toDict q)) := by
  have hnodup : (keysOf (optionsStep ref np (sslmodeStep (toDict q)))).Nodup :=
    nodup_optionsStep _ _ _ (nodup_sslmodeStep _ (nodup_keysOf_toDict _))
  rw [toDict_eq_self _ hnodup,
    sslmodeStep_of_require _ (by rw [qget_optionsStep_sslmode, qget_sslmodeStep])]
  cases np with
  | false => exact optionsStep_false ref _
  | true => exact optionsStep_of_hasProject ref _ (hasProjectOpt_optionsStep ref _)

/-- C8: the connection normalizer is idempotent — applying
`ensure_supabase_pooler_options` (with the same configured project ref)
twice to any split connection URL yields exactly the result of applying it
once. -/
theorem ensure_supabase_pooler_options_idem (PROJECT_REF : String) (u : URL) :
    ensure_supabase_pooler_options PROJECT_REF
        (ensure_supabase_pooler_options PROJECT_REF u)
      = ensure_supabase_pooler_options PROJECT_REF u := by
  show URL.mk u.scheme u.netloc u.path
      (optionsStep PROJECT_REF (strHas u.netloc "pooler.supabase.com")
        (sslmodeStep (toDict (optionsStep PROJECT_REF
          (strHas u.netloc "pooler.supabase.com")
          (sslmodeStep (toDict u.query)))))) u.fragment
    = URL.mk u.scheme u.netloc u.path
      (optionsStep PROJECT_REF (strHas u.netloc "pooler.supabase.com")
        (sslmodeStep (toDict u.query))) u.fragment
  exact congrArg (fun z => URL.mk u.scheme u.netloc u.path z u.fragment)
    (queryStep_idem PROJECT_REF (strHas u.netloc "pooler.supabase.com") u.query)

/-- C10 (frame): the normalizer leaves scheme, netloc (credentials, host,
port), path and fragment untouched; only the query may change, and in the
output every query key occurs exactly once (duplicates of the input are
collapsed by the dict construction). -/
theorem ensure_supabase_pooler_options_frame (PROJECT_REF : String) (u : URL) :
    (ensure_supabase_pooler_options PROJECT_REF u).scheme = u.scheme ∧
    (ensure_supabase_pooler_options PROJECT_REF u).netloc = u.netloc ∧
    (ensure_supabase_pooler_options PROJECT_REF u).path = u.path ∧
    (ensure_supabase_pooler_options PROJECT_REF u).fragment = u.fragment ∧
    (keysOf (ensure_supabase_pooler_options PROJECT_REF u).query).Nodup :=
  ⟨rfl, rfl, rfl, rfl,
    nodup_optionsStep _ _ _ (nodup_sslmodeStep _ (nodup_keysOf_toDict _))⟩

/-- C7: for a connection URL whose netloc matches the Supabase pooling-proxy
pattern and whose parsed query carries no project routing option, the
normalized URL's query holds `sslmode=require` together with an `options`
value that contains `project=<configured ref>`, and any pre-existing
non-empty option text is preserved (stripped) as the leading text of that
value. -/
theorem pooler_url_gets_project_option (PROJECT_REF : String) (u : URL)
    (hpool : strHas u.netloc "pooler.supabase.com" = true)
    (hnoproj : hasProjectOpt (toDict u.query) = false) :
    qget (ensure_supabase_pooler_options PROJECT_REF u).query "sslmode"
        = some "require" ∧
    qget (ensure_supabase_pooler_options PROJECT_REF u).query "options"
        = some (mergedOptions PROJECT_REF (toDict u.query)) ∧
    strHas (mergedOptions PROJECT_REF (toDict u.query))
        ("project=" ++ PROJECT_REF) = true ∧
    strStarts (mergedOptions PROJECT_REF (toDict u.query))
        (pyStrip ((qget (toDict u.query) "options").getD "")) = true := by
  have hquery : (ensure_supabase_pooler_options PROJECT_REF u).query
      = optionsStep PROJECT_REF true (sslmodeStep (toDict u.query)) := by
    show optionsStep PROJECT_REF (strHas u.netloc "pooler.supabase.com")
        (sslmodeStep (toDict u.query)) = _
    rw [hpool]
  have hnp1 : hasProjectOpt (sslmodeStep (toDict u.query)) = false := by
    rw [hasProjectOpt_sslmodeStep]
    exact hnoproj
  have hoptq : qget (sslmodeStep (toDict u.query)) "options"
      = qget (toDict u.query) "options" :=
    qget_sslmodeStep_ne _ _ (by decide)
  refine ⟨?_, ?_, ?_, ?_⟩
  · rw [hquery, qget_optionsStep_sslmode, qget_sslmodeStep]
  · rw [hquery]
    unfold optionsStep
    rw [hnp1, hoptq]
    unfold mergedOptions
    cases ho : qget (toDict u.query) "options" with
    | none => simp [qget_qset_self]
    | some o =>
        by_cases ho0 : o = ""
        · simp [ho0, qget_qset_self]
        · have hso : strHas o "project=" = false := by
            unfold hasProjectOpt at hnoproj
            rw [ho] at hnoproj
            exact hnoproj
          simp [ho0, hso, qget_qset_self]
  · unfold mergedOptions
    cases ho : qget (toDict u.query) "options" with
    | none => exact strHas_self _
    | some o =>
        by_cases ho0 : o = ""
        · simp [ho0, strHas_self]
        · simp [ho0, strHas_merged_full]
  · unfold mergedOptions
    cases ho : qget (toDict u.query) "options" with
    | none =>
        simp only [Option.getD_none]
        rw [show pyStrip "" = "" from rfl]
        exact strStarts_empty _
    | some o =>
        by_cases ho0 : o = ""
        · simp only [ho0, if_true, Option.getD_some]
          rw [show pyStrip "" = "" from rfl]
          exact strStarts_empty _
        · simp only [ho0, if_false, Option.getD_some]
          rw [String.append_assoc]
          exact strStarts_append _ _

/-- Witness for C7 at `poolerUrlExample`. -/
theorem pooler_url_gets_project_option_witness :
    (strHas poolerUrlExample.netloc "pooler.supabase.com" = true ∧
      hasProjectOpt (toDict poolerUrlExample.query) = false) ∧
    (qget (ensure_supabase_pooler_options DEFAULT_PROJECT_REF poolerUrlExample).query
          "sslmode" = some "require" ∧
      qget (ensure_supabase_pooler_options DEFAULT_PROJECT_REF poolerUrlExample).query
          "options" = some (mergedOptions DEFAULT_PROJECT_REF (toDict poolerUrlExample.query)) ∧
      strHas (mergedOptions DEFAULT_PROJECT_REF (toDict poolerUrlExample.query))
          ("project=" ++ DEFAULT_PROJECT_REF) = true ∧
      strStarts (mergedOptions DEFAULT_PROJECT_REF (toDict poolerUrlExample.query))
          (pyStrip ((qget (toDict poolerUrlExample.query) "options").getD "")) = true) :=
  ⟨⟨by decide, by decide⟩,
    pooler_url_gets_project_option DEFAULT_PROJECT_REF poolerUrlExample
      (by decide) (by decide)⟩

theorem parseRows_sorted (symbol : String) (items : List (Date × RawBar)) :
    List.Pairwise (fun a b : Bar => a.ts ≤ b.ts) (parseRows symbol items) :=
  List.sorted_insertionSort (fun a b : Bar => a.ts ≤ b.ts)
    (items.map (mkRow symbol))

theorem attemptStep_bars_sorted (symbol : String) (resp : Nat → FetchStep)
    (attempt : Nat) (next : List Nat × Outcome)
    (hnext : ∀ rows : List Bar, next.2 = Outcome.bars rows →
      List.Pairwise (fun a b : Bar => a.ts ≤ b.ts) rows) :
    ∀ rows : List Bar,
      (attemptStep symbol resp attempt next).2 = Outcome.bars rows →
        List.Pairwise (fun a b : Bar => a.ts ≤ b.ts) rows := by
  intro rows h
  unfold attemptStep at h
  split at h
  · -- network-level exception
    split at h
    · simp at h
    · exact hnext rows h
  · -- JSON body: split on the "Error Message" field
    split at h
    · split at h
      · simp at h
      · exact hnext rows h
    · -- split on the "Note" field
      split at h
      · exact hnext rows h
      · -- split on the time-series payload
        split at h
        · -- payload present: split on emptiness
          split at h
          · split at h
            · simp at h
            · exact hnext rows h
          · -- success: the returned rows are the parsed, sorted rows
            have h2 : Outcome.bars (parseRows symbol _) = Outcome.bars rows := h
            rw [← Outcome.bars.inj h2]
            exact parseRows_sorted symbol _
        · split at h
          · simp at h
          · exact hnext rows h

/-- C4: every successful fetch returns a row sequence sorted ascending by
timestamp, whatever the ordering of the date keys in the upstream
time-series mapping. -/
theorem fetch_returns_sorted (symbol : String) (resp : Nat → FetchStep)
    (sl : List Nat) (rows : List Bar)
    (h : fetch_daily_adjusted symbol resp = (sl, Outcome.bars rows)) :
    List.Pairwise (fun a b : Bar => a.ts ≤ b.ts) rows := by
  have h2 : (fetch_daily_adjusted symbol resp).2 = Outcome.bars rows := by
    rw [h]
  revert h2
  show (attemptStep symbol resp 0 (attemptStep symbol resp 1
      (attemptStep symbol resp 2 ([], Outcome.bars [])))).2
        = Outcome.bars rows →
    List.Pairwise (fun a b : Bar => a.ts ≤ b.ts) rows
  refine attemptStep_bars_sorted symbol resp 0 _ ?_ rows
  refine attemptStep_bars_sorted symbol resp 1 _ ?_
  refine attemptStep_bars_sorted symbol resp 2 _ ?_
  intro rows4 h4
  have h5 : Outcome.bars ([] : List Bar) = Outcome.bars rows4 := h4
  rw [← Outcome.bars.inj h5]
  exact List.Pairwise.nil

/-- Witness for C4 at the concrete descending-order payload. -/
theorem fetch_returns_sorted_witness :
    fetch_daily_adjusted "AAPL" exampleResp = ([], Outcome.bars exampleRows) ∧
    List.Pairwise (fun a b : Bar => a.ts ≤ b.ts) exampleRows :=
  ⟨by decide, fetch_returns_sorted "AAPL" exampleResp [] exampleRows (by decide)⟩

theorem tsOfDate_inj (d1 d2 : Date) (h1 : validDate d1) (h2 : validDate d2)
    (h : tsOfDate d1 = tsOfDate d2) : d1 = d2 := by
  obtain ⟨a1, b1, c1, e1⟩ := h1
  obtain ⟨a2, b2, c2, e2⟩ := h2
  unfold tsOfDate at h
  cases d1
  cases d2
  simp only [Date.mk.injEq]
  simp only at h a1 b1 c1 e1 a2 b2 c2 e2
  omega

/-- C9: when the date keys of the time-series mapping are distinct (a JSON
mapping) and are valid calendar dates, the parsed row list of one fetch is
strictly increasing in timestamp — no two rows share a timestamp — and
hence one write batch carries no duplicate (symbol, ts) key. -/
theorem parseRows_strictly_increasing (symbol : String)
    (items : List (Date × RawBar))
    (hkeys : (items.map Prod.fst).Nodup)
    (hvalid : ∀ p ∈ items, validDate p.1) :
    List.Pairwise (fun a b : Bar => a.ts < b.ts) (parseRows symbol items) ∧
    ((parseRows symbol items).map (fun b => (b.symbol, b.ts))).Nodup := by
  have hle : List.Pairwise (fun a b : Bar => a.ts ≤ b.ts) (parseRows symbol items) :=
    parseRows_sorted symbol items
  have hinj : ∀ x ∈ items.map Prod.fst, ∀ y ∈ items.map Prod.fst,
      tsOfDate x = tsOfDate y → x = y := by
    intro x hx y hy hxy
    obtain ⟨px, hpx, rfl⟩ := List.mem_map.mp hx
    obtain ⟨py, hpy, rfl⟩ := List.mem_map.mp hy
    exact tsOfDate_inj _ _ (hvalid px hpx) (hvalid py hpy) hxy
  have hnodup0 : ((items.map (mkRow symbol)).map Bar.ts).Nodup := by
    have hcomp : (items.map (mkRow symbol)).map Bar.ts
        = (items.map Prod.fst).map tsOfDate := by
      rw [List.map_map, List.map_map]
      rfl
    rw [hcomp]
    exact List.Nodup.map_on hinj hkeys
  have hperm : List.Perm (parseRows symbol items) (items.map (mkRow symbol)) :=
    List.perm_insertionSort _ _
  have hnodup : ((parseRows symbol items).map Bar.ts).Nodup :=
    ((hperm.map Bar.ts).nodup_iff).mpr hnodup0
  have hne : List.Pairwise (fun a b : Bar => a.ts ≠ b.ts) (parseRows symbol items) := by
    rw [List.Nodup, List.pairwise_map] at hnodup
    exact hnodup
  constructor
  · exact (hle.and hne).imp (fun h => lt_of_le_of_ne h.1 h.2)
  · rw [List.Nodup, List.pairwise_map]
    exact hne.imp (fun h hc => h (congrArg Prod.snd hc))

/-- Witness for C9 at the concrete two-key payload. -/
theorem parseRows_strictly_increasing_witness :
    ((exampleItems.map Prod.fst).Nodup ∧ ∀ p ∈ exampleItems, validDate p.1) ∧
    (List.Pairwise (fun a b : Bar => a.ts < b.ts) (parseRows "AAPL" exampleItems) ∧
      ((parseRows "AAPL" exampleItems).map (fun b => (b.symbol, b.ts))).Nodup) :=
  ⟨⟨by decide, by decide⟩,
    parseRows_strictly_increasing "AAPL" exampleItems (by decide) (by decide)⟩

/-- Counterexample to C1: on a response whose body carries the explicit
"Error Message" field on the first attempt, the fetcher does not fail
immediately — it sleeps 5 seconds, retries, and returns the next attempt's
rows; nothing is raised. -/
theorem fetch_error_not_immediate :
    fetch_daily_adjusted "AAPL" errThenOkResp = ([5], Outcome.bars exampleRows) ∧
    (fetch_daily_adjusted "AAPL" errThenOkResp).2.isRaised = false :=
  ⟨by decide, by decide⟩

/-- C1 (amended): the error text of an "Error Message" response is raised to
the caller only when it arrives on the final (third) attempt; on earlier
attempts the fetcher sleeps `5 * 2^attempt` seconds and retries. With error
responses on all three attempts it sleeps 5 s, then 10 s, and raises the
third attempt's error text. -/
theorem fetch_error_retries_then_raises (symbol : String)
    (resp : Nat → FetchStep) (j0 j1 j2 : ApiJson) (m0 m1 m2 : String)
    (h0 : resp 0 = FetchStep.ok j0) (e0 : j0.errorMsg = some m0)
    (h1 : resp 1 = FetchStep.ok j1) (e1 : j1.errorMsg = some m1)
    (h2 : resp 2 = FetchStep.ok j2) (e2 : j2.errorMsg = some m2) :
    fetch_daily_adjusted symbol resp = ([5, 10], Outcome.raised m2) := by
  unfold fetch_daily_adjusted
  simp [attemptStep, h0, e0, h1, e1, h2, e2]

/-- Witness for the amended C1 with error responses on all three attempts. -/
theorem fetch_error_retries_then_raises_witness :
    fetch_daily_adjusted "AAPL" errResp = ([5, 10], Outcome.raised "API error") :=
  fetch_error_retries_then_raises "AAPL" errResp errJson errJson errJson
    "API error" "API error" "API error" rfl rfl rfl rfl rfl rfl

/-- Counterexample to C2: with a rate-limit "Note" on all 3 attempts the
fetcher raises nothing — it sleeps 15 s, 25 s, 35 s and then returns the
empty row list as a normal result. -/
theorem fetch_rate_limited_no_raise :
    fetch_daily_adjusted "AAPL" noteResp = ([15, 25, 35], Outcome.bars []) ∧
    (fetch_daily_adjusted "AAPL" noteResp).2.isRaised = false :=
  ⟨by decide, by decide⟩

/-- C2 (amended): when all 3 attempts of a fetch receive a rate-limit
notice, the fetcher sleeps 15 s, 25 s and 35 s and then returns the empty
row list (which the driver reports as "no data"); it raises no error to its
caller. -/
theorem fetch_rate_limited_returns_empty (symbol : String)
    (resp : Nat → FetchStep) (j0 j1 j2 : ApiJson)
    (h0 : resp 0 = FetchStep.ok j0) (e0 : j0.errorMsg = none) (n0 : j0.note = true)
    (h1 : resp 1 = FetchStep.ok j1) (e1 : j1.errorMsg = none) (n1 : j1.note = true)
    (h2 : resp 2 = FetchStep.ok j2) (e2 : j2.errorMsg = none) (n2 : j2.note = true) :
    fetch_daily_adjusted symbol resp = ([15, 25, 35], Outcome.bars []) := by
  unfold fetch_daily_adjusted
  simp [attemptStep, h0, e0, n0, h1, e1, n1, h2, e2, n2]

/-- Witness for the amended C2 with rate-limit notices on all attempts. -/
theorem fetch_rate_limited_returns_empty_witness :
    fetch_daily_adjusted "MSFT" noteResp = ([15, 25, 35], Outcome.bars []) :=
  fetch_rate_limited_returns_empty "MSFT" noteResp noteJson noteJson noteJson
    rfl rfl rfl rfl rfl rfl rfl rfl rfl

theorem storeGet_upsertOne (s : Store) (b : Bar) (k : String × Nat) :
    storeGet (upsertOne s b) k
      = if barKey b = k then some b else storeGet s k := by
  induction s with
  | nil =>
      by_cases h : barKey b = k <;> simp [upsertOne, storeGet, h]
  | cons e rest ih =>
      by_cases h : e.1 = barKey b
      · by_cases hk : barKey b = k
        · simp [upsertOne, h, storeGet, hk]
        · have he : ¬ e.1 = k := by rw [h]; exact hk
          simp [upsertOne, h, storeGet, hk, he]
      · by_cases hek : e.1 = k
        · have h1 : ¬ barKey b = k := fun hh => h (hek.trans hh.symm)
          have h2 : ¬ k = barKey b := fun hh => h1 hh.symm
          simp [upsertOne, h, storeGet, hek, h1, h2]
        · simp [upsertOne, h, storeGet, hek, ih]

theorem length_upsertOne_of_present (b : Bar) :
    ∀ s : Store, storeGet s (barKey b) ≠ none →
      (upsertOne s b).length = s.length := by
  intro s
  induction s with
  | nil => intro h; simp [storeGet] at h
  | cons e rest ih =>
      intro h
      by_cases he : e.1 = barKey b
      · simp [upsertOne, he]
      · have h2 : storeGet rest (barKey b) ≠ none := by
          simpa [storeGet, he] using h
        simp [upsertOne, he, ih h2]

theorem storeGet_upsertBatch (rows : List Bar) :
    ∀ (s : Store) (k : String × Nat),
      storeGet (upsertBatch s rows) k
        = match lastWith k rows with
          | some r => some r
          | none => storeGet s k := by
  induction rows with
  | nil => intro s k; rfl
  | cons b rest ih =>
      intro s k
      show storeGet (upsertBatch (upsertOne s b) rest) k = _
      rw [ih (upsertOne s b) k]
      cases hl : lastWith k rest with
      | some r => simp [lastWith, hl]
      | none =>
          simp only [lastWith, hl, storeGet_upsertOne]
          by_cases hk : barKey b = k <;> simp [hk]

theorem lastWith_ne_none (b : Bar) (rows : List Bar) (h : b ∈ rows) :
    lastWith (barKey b) rows ≠ none := by
  induction rows with
  | nil => cases h
  | cons c rest ih =>
      rcases List.mem_cons.mp h with heq | hmem
      · subst heq
        unfold lastWith
        cases hl : lastWith (barKey b) rest with
        | some r => simp
        | none => simp
      · unfold lastWith
        cases hl : lastWith (barKey b) rest with
        | some r => simp
        | none => exact absurd hl (ih hmem)

theorem length_upsertBatch_of_present (rows : List Bar) :
    ∀ s : Store, (∀ b ∈ rows, storeGet s (barKey b) ≠ none) →
      (upsertBatch s rows).length = s.length := by
  induction rows with
  | nil => intro s _; rfl
  | cons b rest ih =>
      intro s hall
      show (upsertBatch (upsertOne s b) rest).length = s.length
      have hrest : ∀ b2 ∈ rest, storeGet (upsertOne s b) (barKey b2) ≠ none := by
        intro b2 hb2
        rw [storeGet_upsertOne]
        split
        · simp
        · exact hall b2 (List.mem_cons_of_mem _ hb2)
      rw [ih (upsertOne s b) hrest,
        length_upsertOne_of_present b s (hall b (List.mem_cons_self _ _))]

/-- C3: upserting the same batch twice into the store keyed by (symbol, ts)
yields the same row count and the same stored field values as upserting it
once — key collisions overwrite with the new values (last-write-wins), so
re-ingestion creates no duplicates and leaves unchanged data unchanged. -/
theorem upsert_reingest_idempotent (s : Store) (rows : List Bar) :
    (upsertBatch (upsertBatch s rows) rows).length
        = (upsertBatch s rows).length ∧
    ∀ k, storeGet (upsertBatch (upsertBatch s rows) rows) k
        = storeGet (upsertBatch s rows) k := by
  constructor
  · apply length_upsertBatch_of_present
    intro b hb
    rw [storeGet_upsertBatch]
    cases hl : lastWith (barKey b) rows with
    | some r => simp
    | none => exact absurd hl (lastWith_ne_none b rows hb)
  · intro k
    rw [storeGet_upsertBatch, storeGet_upsertBatch]
    cases hl : lastWith k rows <;> simp

theorem driveFrom_events_total (fetchO : String → DFetch)
    (writeOk : String → Bool) (rest : List String) :
    ∀ (i n : Nat) (store : Store) (total : Nat),
      ((driveFrom fetchO writeOk i n rest store total).1.filterMap
          Event.ingestSym = rest) ∧
      ((driveFrom fetchO writeOk i n rest store total).1.filterMap
          Event.skipSym = rest.filter (failsFor fetchO writeOk)) ∧
      ((driveFrom fetchO writeOk i n rest store total).2.2
          = total + ((rest.filter (writesFor fetchO writeOk)).map
              (rowCount fetchO)).sum) := by
  induction rest with
  | nil => intro i n store total; simp [driveFrom]
  | cons sym rest ih =>
      intro i n store total
      simp only [driveFrom]
      cases hf : fetchO sym with
      | err m =>
          have := ih (i + 1) n store total
          simp [symStep, hf, failsFor, writesFor, rowCount, Event.ingestSym,
            Event.skipSym, List.filterMap_append, this.1, this.2.1, this.2.2]
      | rows rs =>
          by_cases hrs : rs = []
          · have := ih (i + 1) n store total
            simp [symStep, hf, hrs, failsFor, writesFor, rowCount,
              Event.ingestSym, Event.skipSym, List.filterMap_append,
              this.1, this.2.1, this.2.2]
          · by_cases hw : writeOk sym = true
            · have := ih (i + 1) n (upsertBatch store rs) (total + rs.length)
              constructor
              · simp [symStep, hf, hrs, hw, Event.ingestSym,
                  List.filterMap_append, this.1]
              constructor
              · simp [symStep, hf, hrs, hw, failsFor, Event.skipSym,
                  List.filterMap_append, this.2.1]
              · simp [symStep, hf, hrs, hw, writesFor, rowCount,
                  this.2.2]
                omega
            · have hw2 : writeOk sym = false := by simpa using hw
              have := ih (i + 1) n store total
              simp [symStep, hf, hrs, hw2, failsFor, writesFor, rowCount,
                Event.ingestSym, Event.skipSym, List.filterMap_append,
                this.1, this.2.1, this.2.2]

/-- C6: the driver visits every configured symbol in order (one ingest line
per symbol, even after earlier failures), logs a skip exactly for the
symbols whose fetch or write raises and continues past them, accumulates
the running total only from successfully written batches, and finishes by
reporting that total. -/
theorem driver_isolates_failures (syms : List String)
    (fetchO : String → DFetch) (writeOk : String → Bool) (store : Store) :
    ((runMain syms fetchO writeOk store).1.filterMap Event.ingestSym = syms) ∧
    ((runMain syms fetchO writeOk store).1.filterMap Event.skipSym
        = syms.filter (failsFor fetchO writeOk)) ∧
    ((runMain syms fetchO writeOk store).2.2
        = ((syms.filter (writesFor fetchO writeOk)).map (rowCount fetchO)).sum) ∧
    ((runMain syms fetchO writeOk store).1.getLast?
        = some (Event.report (runMain syms fetchO writeOk store).2.2)) := by
  obtain ⟨h1, h2, h3⟩ :=
    driveFrom_events_total fetchO writeOk syms 1 syms.length store 0
  refine ⟨?_, ?_, ?_, ?_⟩
  · simpa [runMain, List.filterMap_append, Event.ingestSym] using h1
  · simpa [runMain, List.filterMap_append, Event.skipSym] using h2
  · simpa [runMain] using h3
  · simp [runMain]

theorem driveFrom_sleep_count (fetchO : String → DFetch)
    (writeOk : String → Bool) (rest : List String) :
    ∀ (i n : Nat) (store : Store) (total : Nat), i + rest.length = n + 1 →
      ((driveFrom fetchO writeOk i n rest store total).1.countP isSleep)
        = (rest.dropLast.filter (writesFor fetchO writeOk)).length := by
  induction rest with
  | nil => intro i n store total _; simp [driveFrom]
  | cons sym rest ih =>
      intro i n store total hlen
      simp only [driveFrom, List.countP_append]
      cases rest with
      | nil =>
          have hin : ¬ i < n := by
            simp at hlen
            omega
          cases hf : fetchO sym with
          | err m => simp [symStep, hf, driveFrom, isSleep]
          | rows rs =>
              by_cases hrs : rs = []
              · simp [symStep, hf, hrs, driveFrom, isSleep]
              · by_cases hw : writeOk sym = true
                · simp [symStep, hf, hrs, hw, hin, driveFrom, isSleep]
                · have hw2 : writeOk sym = false := by simpa using hw
                  simp [symStep, hf, hrs, hw2, driveFrom, isSleep]
      | cons sym2 rest2 =>
          have hin : i < n := by
            simp at hlen
            omega
          have hlen2 : (i + 1) + (sym2 :: rest2).length = n + 1 := by
            simp at hlen ⊢
            omega
          have hdl : (sym :: sym2 :: rest2).dropLast
              = sym :: (sym2 :: rest2).dropLast := rfl
          cases hf : fetchO sym with
          | err m =>
              have := ih (i + 1) n store total hlen2
              simp [symStep, hf, isSleep, this, hdl, writesFor]
          | rows rs =>
              by_cases hrs : rs = []
              · have := ih (i + 1) n store total hlen2
                simp [symStep, hf, hrs, isSleep, this, hdl, writesFor]
              · by_cases hw : writeOk sym = true
                · have := ih (i + 1) n (upsertBatch store rs)
                    (total + rs.length) hlen2
                  simp [symStep, hf, hrs, hw, hin, isSleep, this, hdl,
                    writesFor]
                  omega
                · have hw2 : writeOk sym = false := by simpa using hw
                  have := ih (i + 1) n store total hlen2
                  simp [symStep, hf, hrs, hw2, isSleep, this, hdl, writesFor]

/-- C5 (amended): the driver sleeps 13 seconds exactly after each symbol
that is successfully fetched and written with non-empty rows and is not in
the last position; it imposes no delay after the last symbol, nor after a
symbol that fails or returns no data. -/
theorem driver_delay_after_written_symbols (syms : List String)
    (fetchO : String → DFetch) (writeOk : String → Bool) (store : Store) :
    (runMain syms fetchO writeOk store).1.countP isSleep
      = (syms.dropLast.filter (writesFor fetchO writeOk)).length := by
  have h := driveFrom_sleep_count fetchO writeOk syms 1 syms.length store 0
    (by omega)
  simpa [runMain, List.countP_append, isSleep] using h

/-- Counterexample to C5: in a 2-symbol run whose first symbol fails, the
driver performs no sleep at all — in particular no 13-second delay is
imposed after the non-last symbol "AAA"; the delay only follows
successfully written symbols. -/
theorem driver_no_delay_after_failure :
    (runMain cexSyms cexFetchO (fun _ => true) []).1
      = [Event.ingest 1 2 "AAA", Event.skip "AAA",
         Event.ingest 2 2 "BBB", Event.done "BBB" 2,
         Event.report 2] ∧
    (runMain cexSyms cexFetchO (fun _ => true) []).1.countP isSleep = 0 :=
  ⟨by decide, by decide⟩

end TickerVista
